import Mathlib

/-!
Verification of the `shellrs` interactive shell.

Strings are modelled as `List Char` (Rust `String` / `&str` at the character
level); where the Rust code operates on UTF-8 byte counts this is modelled
explicitly via `Char.utf8Size`.  Fallible operations return `Except` /
`Option` (with `none` standing for a Rust panic).  Each definition is a
direct translation of the corresponding function in the repository's source.
-/

namespace Levenshtein

/-- Inner loop of `Levenshtein::distance` (src/levenshtein/src/lib.rs, lines
25-35).  Walks the characters of `s` together with the tail of the previous
row `old`, carrying `prev` (the diagonal value `dp[i-1]` from the previous
row) and `left` (the freshly written `dp[i-1]`), and produces the tail of the
updated row. -/
def distInner (tc : Char) : List Char → Nat → Nat → List Nat → List Nat
  | [], _, _, _ => []
  | _ :: _, _, _, [] => []
  | c :: srest, prev, left, old :: oldRest =>
    let v := if c = tc then prev else 1 + min prev (min left old)
    v :: distInner tc srest old v oldRest

/-- Outer loop of `Levenshtein::distance` (lines 21-36): for each character of
`t` (with 1-based counter `j`), overwrite `dp[0]` with `j` and update the rest
of the row via `distInner`. -/
def distLoop (s : List Char) : List Char → Nat → List Nat → List Nat
  | [], _, dp => dp
  | tc :: trest, j, dp =>
    match dp with
    | [] => []
    | d0 :: dtail => distLoop s trest (j + 1) (j :: distInner tc s d0 j dtail)

/-- Model of `Levenshtein::distance` (src/levenshtein/src/lib.rs, lines 5-39): rolling
single-row dynamic programming, with the two early returns for empty
inputs; the result is `dp[s_len]`. -/
def distance (s t : List Char) : Nat :=
  if s.length = 0 then t.length
  else if t.length = 0 then s.length
  else (distLoop s t 1 (List.range (s.length + 1))).getD s.length 0

/-- Loop body of `Levenshtein::get_closest_with_threshold` (lines 70-76):
fold over the candidates keeping the smallest distance seen and the first
candidate attaining it. -/
def getClosestLoop (s : List Char) : List (List Char) → Nat → Option (List Char) →
    Nat × Option (List Char)
  | [], minDistance, closest => (minDistance, closest)
  | candidate :: rest, minDistance, closest =>
    let d := distance s candidate
    if d < minDistance then getClosestLoop s rest d (some candidate)
    else getClosestLoop s rest minDistance closest

/-- The value `usize::MAX`, the initial value of `min_distance`. -/
def usizeMax : Nat := 2 ^ 64 - 1

/-- Model of `Levenshtein::get_closest_with_threshold` (lines 62-83). -/
def get_closest_with_threshold (s : List Char) (vars : List (List Char))
    (threshold : Nat) : Option (List Char) :=
  let r := getClosestLoop s vars usizeMax none
  if r.1 ≤ threshold then r.2 else none

end Levenshtein

/-- The classic single-character insertion/deletion/substitution edit distance
between two character sequences, written as the textbook recursion.  This is
the specification-side definition that `Levenshtein.distance` is compared
against. -/
def editDistance : List Char → List Char → Nat
  | [], t => t.length
  | s, [] => s.length
  | a :: s, b :: t =>
    if a = b then editDistance s t
    else 1 + min (editDistance s t) (min (editDistance s (b :: t)) (editDistance (a :: s) t))
termination_by s t => s.length + t.length
decreasing_by all_goals simp_arith

/-- One primitive edit operation, labelled with the characters it consumes on
each side.  A list of steps is an alignment between the two strings obtained
by concatenating the consumed characters. -/
inductive EditStep where
  | del (a : Char)
  | ins (b : Char)
  | sub (a b : Char)
deriving DecidableEq

/-- The left-hand string consumed by an alignment. -/
def stepsLeft : List EditStep → List Char :=
  List.filterMap fun st =>
    match st with
    | .del a => some a
    | .sub a _ => some a
    | .ins _ => none

/-- The right-hand string produced by an alignment. -/
def stepsRight : List EditStep → List Char :=
  List.filterMap fun st =>
    match st with
    | .del _ => none
    | .sub _ b => some b
    | .ins b => some b

/-- Unit cost of an alignment: deletions and insertions cost 1, substitutions
cost 1 unless the characters are equal. -/
def stepsCost : List EditStep → Nat
  | [] => 0
  | .del _ :: e => 1 + stepsCost e
  | .ins _ :: e => 1 + stepsCost e
  | .sub a b :: e => (if a = b then 0 else 1) + stepsCost e

/-- The tail of the DP row maintained by `Levenshtein.distInner`, described
abstractly: entry `i` (0-based) is the edit distance from the reversal of
`r` extended by the first `i+1` characters of `s` to the target `u`. -/
def rowTail (r u : List Char) : List Char → List Nat
  | [] => []
  | c :: s => editDistance (c :: r) u :: rowTail (c :: r) u s

/-- Specification-side version of `get_closest_with_threshold`, written from
the spec's words: take the minimum distance over the candidates; discard it
if it exceeds the threshold, otherwise return the first candidate attaining
the minimum. -/
def closestSpec (s : List Char) (vars : List (List Char)) (threshold : Nat) :
    Option (List Char) :=
  match (vars.map fun c => Levenshtein.distance s c).min? with
  | none => none
  | some m =>
    if m ≤ threshold then vars.find? fun c => Levenshtein.distance s c = m
    else none

/-- The error taxonomy of the shell (src/src/app/error.rs). -/
inductive ShellError where
  | EmptyInput
  | CommandNotFound (commandName : List Char)
  | CommandExecutionFail (msg : List Char)
  | ParsingFail (msg : List Char)
deriving DecidableEq

/-- The output handle of the shell (src/src/app/output.rs): the inherited
standard output, the inherited standard error, or a file opened for
redirection (identified here by its path). -/
inductive ShellOutput where
  | Stdout
  | Stderr
  | File (path : List Char)
deriving DecidableEq

/-- Model of `ShellOutput::file` (src/src/app/output.rs, line 26): a freshly
created/truncated file handle for the given path. -/
def ShellOutput.file (path : List Char) : ShellOutput := ShellOutput.File path

/-- The output-stream portion of the `Shell` state (src/src/app/shell.rs,
lines 12-23) that dispatch swaps and restores. -/
structure ShellSt where
  stdout : ShellOutput
  stderr : ShellOutput
deriving DecidableEq

/-- The redirection-handling portion of `Shell::eval` (src/src/app/shell.rs,
lines 204-221): swap in file handles for the requested redirections, run the
resolved command (modelled as an arbitrary state transformer `run`, since the
command receives `&mut self`), then restore whichever handles were swapped,
whether the command returned `Ok` or `Err`. -/
def evalDispatch (run : ShellSt → Except ShellError Unit × ShellSt)
    (stdoutRedirect stderrRedirect : Option (List Char)) (st : ShellSt) :
    Except ShellError Unit × ShellSt :=
  let p1 : Option ShellOutput × ShellSt :=
    match stdoutRedirect with
    | none => (none, st)
    | some file => (some st.stdout, { st with stdout := ShellOutput.file file })
  let originalStdout := p1.1
  let p2 : Option ShellOutput × ShellSt :=
    match stderrRedirect with
    | none => (none, p1.2)
    | some file => (some p1.2.stderr, { p1.2 with stderr := ShellOutput.file file })
  let originalStderr := p2.1
  let r := run p2.2
  let st3 :=
    match originalStdout with
    | none => r.2
    | some o => { r.2 with stdout := o }
  let st4 :=
    match originalStderr with
    | none => st3
    | some o => { st3 with stderr := o }
  (r.1, st4)

/-- The state `run` observes inside `evalDispatch`: requested redirections
replaced by file handles, the rest untouched. -/
def swappedSt (stdoutRedirect stderrRedirect : Option (List Char)) (st : ShellSt) :
    ShellSt :=
  { stdout := match stdoutRedirect with
      | none => st.stdout
      | some file => ShellOutput.file file
    stderr := match stderrRedirect with
      | none => st.stderr
      | some file => ShellOutput.file file }

/-- Whitespace-run skipping in the tokenizer (src/src/app/shell.rs, lines
294-301): consume any further consecutive spaces/tabs. -/
def skipWhitespace (l : List Char) : List Char :=
  l.dropWhile fun c => c = ' ' || c = '\t'

/-- Model of `Shell::parse_shell_input` (src/src/app/shell.rs, lines 272-311), as a
recursion over the remaining characters with the two quote flags and the
current token accumulator. -/
def shellTokens : List Char → Bool → Bool → List Char → List (List Char)
  | [], _, _, current => if current = [] then [] else [current]
  | c :: rest, inSingleQuote, inDoubleQuote, current =>
    if c = '\'' ∧ ¬inDoubleQuote then
      shellTokens rest (!inSingleQuote) inDoubleQuote current
    else if c = '"' ∧ ¬inSingleQuote then
      shellTokens rest inSingleQuote (!inDoubleQuote) current
    else if c = '\\' then
      match rest with
      | [] => shellTokens [] inSingleQuote inDoubleQuote current
      | escapedChar :: rest' =>
        shellTokens rest' inSingleQuote inDoubleQuote (current ++ [escapedChar])
    else if (c = ' ' ∨ c = '\t') ∧ ¬inSingleQuote ∧ ¬inDoubleQuote then
      if current = [] then shellTokens (skipWhitespace rest) inSingleQuote inDoubleQuote []
      else current :: shellTokens (skipWhitespace rest) inSingleQuote inDoubleQuote []
    else
      shellTokens rest inSingleQuote inDoubleQuote (current ++ [c])
termination_by l => l.length
decreasing_by
  all_goals simp_arith
  all_goals exact (List.dropWhile_sublist _).length_le

/-- Model of `Shell::parse_shell_input` applied to the whole input buffer. -/
def parse_shell_input (input : List Char) : List (List Char) :=
  shellTokens input false false []

/-- The parsing-failure message for `>`/`1>`/`&>` with no following token. -/
def noOutputFileMsg : List Char := "no file specified for output redirection".toList

/-- The parsing-failure message for `2>` with no following token. -/
def noErrorFileMsg : List Char := "no file specified for error output redirection".toList

/-- Loop body of `Shell::process_redirections` (src/src/app/shell.rs, lines
238-266), with the command-token and redirection accumulators explicit. -/
def processRedirAux :
    List (List Char) → List (List Char) → Option (List Char) → Option (List Char) →
    Except ShellError (List (List Char) × Option (List Char) × Option (List Char))
  | [], commandTokens, stdoutRedirect, stderrRedirect =>
    .ok (commandTokens, stdoutRedirect, stderrRedirect)
  | token :: rest, commandTokens, stdoutRedirect, stderrRedirect =>
    if token = "&>".toList then
      match rest with
      | [] => .error (.ParsingFail noOutputFileMsg)
      | file :: rest' => processRedirAux rest' commandTokens (some file) (some file)
    else if token = ">".toList ∨ token = "1>".toList then
      match rest with
      | [] => .error (.ParsingFail noOutputFileMsg)
      | file :: rest' => processRedirAux rest' commandTokens (some file) stderrRedirect
    else if token = "2>".toList then
      match rest with
      | [] => .error (.ParsingFail noErrorFileMsg)
      | file :: rest' => processRedirAux rest' commandTokens stdoutRedirect (some file)
    else
      processRedirAux rest (commandTokens ++ [token]) stdoutRedirect stderrRedirect

/-- Model of `Shell::process_redirections` (src/src/app/shell.rs, lines 230-268). -/
def process_redirections (tokens : List (List Char)) :
    Except ShellError (List (List Char) × Option (List Char) × Option (List Char)) :=
  processRedirAux tokens [] none none

/-- Whether a token is one of the recognized redirection operators. -/
def isRedirOp (t : List Char) : Bool :=
  t = "&>".toList || t = ">".toList || t = "1>".toList || t = "2>".toList

/-- Specification-side redirection resolution, written from the spec's words:
scan left to right; an operator consumes the immediately following token as
its target (failing with `none` if there is none); a later operator of the
same kind overrides an earlier one (so an earlier assignment survives only
when the rest of the scan assigns nothing); all other tokens pass through in
order. -/
def specScan : List (List Char) →
    Option (List (List Char) × Option (List Char) × Option (List Char))
  | [] => some ([], none, none)
  | token :: rest =>
    if token = "&>".toList then
      match rest with
      | [] => none
      | file :: rest' =>
        (specScan rest').map fun r => (r.1, some (r.2.1.getD file), some (r.2.2.getD file))
    else if token = ">".toList ∨ token = "1>".toList then
      match rest with
      | [] => none
      | file :: rest' =>
        (specScan rest').map fun r => (r.1, some (r.2.1.getD file), r.2.2)
    else if token = "2>".toList then
      match rest with
      | [] => none
      | file :: rest' =>
        (specScan rest').map fun r => (r.1, r.2.1, some (r.2.2.getD file))
    else
      (specScan rest).map fun r => (token :: r.1, r.2.1, r.2.2)

/-- Rust's `str::trim_end_matches` with a single-character pattern: remove
every trailing occurrence of `target`. -/
def trimEndMatches (target : Char) (l : List Char) : List Char :=
  (l.reverse.dropWhile fun c => c = target).reverse

/-- Rust's `str::ends_with(char)`. -/
def endsWithChar (target : Char) (l : List Char) : Bool :=
  match l.reverse with
  | [] => false
  | c :: _ => c = target

/-- Rust's `line.ends_with("\\\\")`: the last two characters are both backslashes. -/
def endsWithTwoBackslashes (l : List Char) : Bool :=
  l.reverse.take 2 = ['\\', '\\']

/-- Model of `Shell::read_multiline_input` (src/src/app.rs, lines 120-142), over the
stream of physical lines delivered by `read_line` (each possibly ending in a
newline, which the code trims).  A line ending in an unescaped backslash is
stripped of that backslash, a single space is appended, and reading
continues; otherwise the line is appended verbatim and reading stops. -/
def read_multiline_input : List (List Char) → List Char
  | [] => []
  | raw :: rest =>
    let line := trimEndMatches '\n' raw
    if endsWithChar '\\' line && !endsWithTwoBackslashes line then
      trimEndMatches '\\' line ++ ' ' :: read_multiline_input rest
    else line

/-- Byte-wise (equivalently, code-point-wise) lexicographic order on strings:
Rust's `Ord` for `String`, used by `Vec::sort`. -/
def strLe : List Char → List Char → Bool
  | [], _ => true
  | _ :: _, [] => false
  | a :: as, b :: bs =>
    if a.toNat < b.toNat then true
    else if b.toNat < a.toNat then false
    else strLe as bs

/-- Model of `CommandsRegistry::populate_registered_names` (src/src/commands/registry.rs,
lines 105-113): concatenate the builtin key list and the external key list,
then sort (Rust's stable `Vec::sort`, modelled by `List.mergeSort`). -/
def populate_registered_names (builtinKeys externalKeys : List (List Char)) :
    List (List Char) :=
  (builtinKeys ++ externalKeys).mergeSort strLe

/-- UTF-8 byte length of a string: Rust's `str::len`. -/
def byteLen (l : List Char) : Nat := (l.map Char.utf8Size).sum

/-- The adaptive suggestion threshold of `Shell::handle_eval_error`
(src/src/app/shell.rs, line 326): `command_name.len()` is the UTF-8 byte
length. -/
def levenshteinThreshold (commandName : List Char) : Nat :=
  if byteLen commandName < 4 then 1 else 2

/-- The suggestion performed on a command-not-found condition
(src/src/app/shell.rs, lines 326-331). -/
def suggestClosest (commandName : List Char) (registeredNames : List (List Char)) :
    Option (List Char) :=
  Levenshtein.get_closest_with_threshold commandName registeredNames
    (levenshteinThreshold commandName)

/-- Map a byte offset into a string to the index of the character starting
there: Rust's `str::is_char_boundary`, with the character index recovered.
`none` means the offset is out of range or inside a multi-byte character. -/
def charBoundary : List Char → Nat → Option Nat
  | _, 0 => some 0
  | [], _ + 1 => none
  | c :: l, n + 1 =>
    if n + 1 < c.utf8Size then none
    else (charBoundary l (n + 1 - c.utf8Size)).map (· + 1)

/-- Rust's `String::insert(idx, ch)`: panics (modelled by `none`) unless
`idx` is a character boundary. -/
def stringInsert (l : List Char) (idx : Nat) (ch : Char) : Option (List Char) :=
  (charBoundary l idx).map fun p => l.take p ++ ch :: l.drop p

/-- Rust's `String::remove(idx)`: panics (modelled by `none`) unless `idx`
is a character boundary strictly inside the string; removes the character
starting at `idx`. -/
def stringRemove (l : List Char) (idx : Nat) : Option (List Char) :=
  match charBoundary l idx with
  | none => none
  | some p => if p < l.length then some (l.eraseIdx p) else none

/-- The editing events recognized by the line editors: the decoded arrow
keys, backspace (byte `127` or `8`), and an arbitrary other input byte
(0-255) offered for insertion.  `histUp` is the up-arrow placeholder that
only `InputHandler::input_loop` implements. -/
inductive KeyEvent where
  | left
  | right
  | backspace
  | insert (b : Nat)
  | histUp
deriving DecidableEq

/-- Editor state: the line buffer and the cursor, which Rust keeps as a byte
offset into the buffer. -/
structure EditorSt where
  buffer : List Char
  cursor : Nat
deriving DecidableEq

/-- One event of `Shell::handle_input` (src/src/app/shell.rs, lines 80-134).
Only printable ASCII bytes are inserted (`b.is_ascii() &&
!b.is_ascii_control()`); the up-arrow byte falls through to the catch-all and
does nothing. -/
def handleInputStep (st : EditorSt) : KeyEvent → Option EditorSt
  | .left => some { st with cursor := if 0 < st.cursor then st.cursor - 1 else st.cursor }
  | .right =>
    some { st with cursor := if st.cursor < byteLen st.buffer then st.cursor + 1 else st.cursor }
  | .backspace =>
    if 0 < st.cursor then
      (stringRemove st.buffer (st.cursor - 1)).map fun b =>
        { buffer := b, cursor := st.cursor - 1 }
    else some st
  | .insert b =>
    if b ≤ 127 ∧ ¬(b < 32 ∨ b = 127) then
      (stringInsert st.buffer st.cursor (Char.ofNat b)).map fun buf =>
        { buffer := buf, cursor := st.cursor + 1 }
    else some st
  | .histUp => some st

/-- The buffer `InputHandler::input_loop` substitutes on up-arrow
(src/src/app/input_handler.rs, line 78). -/
def histPlaceholder : List Char := "command from history todo!!!".toList

/-- One event of `InputHandler::input_loop` (src/src/app/input_handler.rs,
lines 43-103).  The insertion guard is only `!b.is_ascii_control()`, so bytes
`128..=255` are converted with `as char` and inserted as (two-byte)
characters, while the cursor advances by one byte. -/
def inputLoopStep (st : EditorSt) : KeyEvent → Option EditorSt
  | .left => some { st with cursor := if 0 < st.cursor then st.cursor - 1 else st.cursor }
  | .right =>
    some { st with cursor := if st.cursor < byteLen st.buffer then st.cursor + 1 else st.cursor }
  | .backspace =>
    if 0 < st.cursor then
      (stringRemove st.buffer (st.cursor - 1)).map fun b =>
        { buffer := b, cursor := st.cursor - 1 }
    else some st
  | .insert b =>
    if b ≤ 255 ∧ ¬(b < 32 ∨ b = 127) then
      (stringInsert st.buffer st.cursor (Char.ofNat b)).map fun buf =>
        { buffer := buf, cursor := st.cursor + 1 }
    else some st
  | .histUp => some { buffer := histPlaceholder, cursor := byteLen histPlaceholder }

/-- Run `Shell::handle_input` over a sequence of events starting from the
empty buffer, stopping with `none` if any event panics. -/
def runHandleInput (events : List KeyEvent) : Option EditorSt :=
  events.foldlM handleInputStep { buffer := [], cursor := 0 }

/-- Run `InputHandler::input_loop` over a sequence of events starting from
the empty buffer. -/
def runInputLoop (events : List KeyEvent) : Option EditorSt :=
  events.foldlM inputLoopStep { buffer := [], cursor := 0 }

/- ======================================================================== -/
/- Theorems.                                                                -/
/- ======================================================================== -/

theorem editDistance_nil_left (t : List Char) : editDistance [] t = t.length := by
  rw [editDistance]

theorem editDistance_nil_right (s : List Char) : editDistance s [] = s.length := by
  cases s
  · rw [editDistance]
  · rw [editDistance]
    simp

theorem editDistance_cons_cons (a b : Char) (s t : List Char) :
    editDistance (a :: s) (b :: t) =
      if a = b then editDistance s t
      else 1 + min (editDistance s t)
        (min (editDistance s (b :: t)) (editDistance (a :: s) t)) := by
  rw [editDistance]

unseal editDistance in
example : editDistance "kitten".toList "sitting".toList = 3 := by decide
example : Levenshtein.distance "kitten".toList "sitting".toList = 3 := by decide
example : Levenshtein.distance "flaw".toList "lawn".toList = 2 := by decide

theorem editDistance_length_bounds :
    ∀ (n : Nat) (s t : List Char), s.length + t.length = n →
      s.length ≤ editDistance s t + t.length ∧ t.length ≤ editDistance s t + s.length := by
  intro n
  induction n using Nat.strong_induction_on with
  | _ n ih =>
    intro s t hlen
    match s, t with
    | [], t => rw [editDistance_nil_left]; simp
    | a :: s', [] => rw [editDistance_nil_right]; simp
    | a :: s', b :: t' =>
      rw [editDistance_cons_cons]
      by_cases hab : a = b
      · have h1 := ih (s'.length + t'.length) (by simp at hlen; omega) s' t' rfl
        simp only [if_pos hab, List.length_cons]
        omega
      · have h1 := ih (s'.length + t'.length) (by simp at hlen; omega) s' t' rfl
        have h2 := ih (s'.length + (b :: t').length) (by simp at hlen ⊢; omega) s' (b :: t') rfl
        have h3 := ih ((a :: s').length + t'.length) (by simp at hlen ⊢; omega) (a :: s') t' rfl
        simp only [if_neg hab, List.length_cons] at h1 h2 h3 ⊢
        omega

theorem editDistance_step_bounds :
    ∀ (n : Nat) (s t : List Char), s.length + t.length = n → ∀ a b : Char,
      (editDistance (a :: s) t ≤ 1 + editDistance s t) ∧
      (editDistance s t ≤ 1 + editDistance (a :: s) t) ∧
      (editDistance s (b :: t) ≤ 1 + editDistance s t) ∧
      (editDistance s t ≤ 1 + editDistance s (b :: t)) := by
  intro n
  induction n using Nat.strong_induction_on with
  | _ n ih =>
    intro s t hlen a b
    match s, t with
    | [], [] =>
      refine ⟨?_, ?_, ?_, ?_⟩ <;>
        simp [editDistance_nil_left, editDistance_nil_right]
    | [], c :: t' =>
      have hlb := (editDistance_length_bounds _ [a] (c :: t') rfl).2
      simp only [List.length_cons, List.length_nil] at hlb
      refine ⟨?_, ?_, ?_, ?_⟩
      · rw [editDistance_cons_cons]
        by_cases hac : a = c
        · simp only [if_pos hac, editDistance_nil_left, List.length_cons]
          omega
        · simp only [if_neg hac, editDistance_nil_left, List.length_cons]
          omega
      · simp only [editDistance_nil_left, List.length_cons]
        omega
      · simp only [editDistance_nil_left, List.length_cons]
        omega
      · simp only [editDistance_nil_left, List.length_cons]
        omega
    | d :: s', [] =>
      have hlb := (editDistance_length_bounds _ (d :: s') [b] rfl).1
      simp only [List.length_cons, List.length_nil] at hlb
      refine ⟨?_, ?_, ?_, ?_⟩
      · simp only [editDistance_nil_right, List.length_cons]
        omega
      · simp only [editDistance_nil_right, List.length_cons]
        omega
      · rw [editDistance_cons_cons]
        by_cases hdb : d = b
        · simp only [if_pos hdb, editDistance_nil_right, editDistance_nil_left,
            List.length_cons, List.length_nil]
          omega
        · simp only [if_neg hdb, editDistance_nil_right, editDistance_nil_left,
            List.length_cons, List.length_nil]
          omega
      · simp only [editDistance_nil_right, List.length_cons]
        omega
    | d :: s', c :: t' =>
      have hn : s'.length + t'.length + 1 < n := by simp at hlen; omega
      refine ⟨?_, ?_, ?_, ?_⟩
      · -- editDistance (a :: d :: s') (c :: t') ≤ 1 + editDistance (d :: s') (c :: t')
        rw [editDistance_cons_cons a c (d :: s') t']
        by_cases hac : a = c
        · simp only [if_pos hac]
          exact (ih _ hn (d :: s') t' (by simp; omega) a c).2.2.2
        · simp only [if_neg hac]
          omega
      · -- editDistance (d :: s') (c :: t') ≤ 1 + editDistance (a :: d :: s') (c :: t')
        rw [editDistance_cons_cons a c (d :: s') t']
        by_cases hac : a = c
        · simp only [if_pos hac]
          exact (ih _ hn (d :: s') t' (by simp; omega) a c).2.2.1
        · have hF1 := (ih _ hn (d :: s') t' (by simp; omega) a c).2.2.1
          have hF2 := (ih _ hn (d :: s') t' (by simp; omega) a c).2.1
          simp only [if_neg hac]
          omega
      · -- editDistance (d :: s') (b :: c :: t') ≤ 1 + editDistance (d :: s') (c :: t')
        rw [editDistance_cons_cons d b s' (c :: t')]
        by_cases hdb : d = b
        · simp only [if_pos hdb]
          exact (ih _ hn s' (c :: t') (by simp; omega) d b).2.1
        · simp only [if_neg hdb]
          omega
      · -- editDistance (d :: s') (c :: t') ≤ 1 + editDistance (d :: s') (b :: c :: t')
        rw [editDistance_cons_cons d b s' (c :: t')]
        by_cases hdb : d = b
        · simp only [if_pos hdb]
          exact (ih _ hn s' (c :: t') (by simp; omega) d b).1
        · have hF1 := (ih _ hn s' (c :: t') (by simp; omega) d b).1
          have hF2 := (ih _ hn s' (c :: t') (by simp; omega) d b).2.2.2
          simp only [if_neg hdb]
          omega

/-- Deleting the head character raises the distance by at most one. -/
theorem ed_del_le (s t : List Char) (a : Char) :
    editDistance (a :: s) t ≤ 1 + editDistance s t :=
  (editDistance_step_bounds (s.length + t.length) s t rfl a a).1

/-- Inserting a head character on the right raises the distance by at most one. -/
theorem ed_ins_le (s t : List Char) (b : Char) :
    editDistance s (b :: t) ≤ 1 + editDistance s t :=
  (editDistance_step_bounds (s.length + t.length) s t rfl b b).2.2.1

/-- Substitution bound. -/
theorem ed_sub_le (s t : List Char) (a b : Char) :
    editDistance (a :: s) (b :: t) ≤ (if a = b then 0 else 1) + editDistance s t := by
  rw [editDistance_cons_cons]
  by_cases hab : a = b
  · simp [hab]
  · simp only [if_neg hab]
    omega

theorem editDistance_self (s : List Char) : editDistance s s = 0 := by
  induction s with
  | nil => rw [editDistance_nil_left]; rfl
  | cons a s ih => rw [editDistance_cons_cons, if_pos rfl]; exact ih

theorem editDistance_comm :
    ∀ (n : Nat) (s t : List Char), s.length + t.length = n →
      editDistance s t = editDistance t s := by
  intro n
  induction n using Nat.strong_induction_on with
  | _ n ih =>
    intro s t hlen
    match s, t with
    | [], t => rw [editDistance_nil_left, editDistance_nil_right]
    | a :: s', [] => rw [editDistance_nil_left, editDistance_nil_right]
    | a :: s', b :: t' =>
      have hn : s'.length + t'.length + 1 < n := by simp at hlen; omega
      by_cases hab : a = b
      · subst hab
        rw [editDistance_cons_cons, editDistance_cons_cons, if_pos rfl, if_pos rfl]
        exact ih _ (by omega) s' t' rfl
      · rw [editDistance_cons_cons, editDistance_cons_cons, if_neg hab,
          if_neg (Ne.symm hab)]
        rw [ih _ (by omega) s' t' rfl, ih _ hn s' (b :: t') (by simp; omega),
          ih _ hn (a :: s') t' (by simp; omega)]
        omega

theorem stepsLeft_del (a : Char) (e : List EditStep) :
    stepsLeft (.del a :: e) = a :: stepsLeft e := rfl

theorem stepsLeft_ins (b : Char) (e : List EditStep) :
    stepsLeft (.ins b :: e) = stepsLeft e := rfl

theorem stepsLeft_sub (a b : Char) (e : List EditStep) :
    stepsLeft (.sub a b :: e) = a :: stepsLeft e := rfl

theorem stepsRight_del (a : Char) (e : List EditStep) :
    stepsRight (.del a :: e) = stepsRight e := rfl

theorem stepsRight_ins (b : Char) (e : List EditStep) :
    stepsRight (.ins b :: e) = b :: stepsRight e := rfl

theorem stepsRight_sub (a b : Char) (e : List EditStep) :
    stepsRight (.sub a b :: e) = b :: stepsRight e := rfl

/-- Any alignment costs at least the edit distance between the strings it
aligns. -/
theorem editDistance_le_stepsCost (e : List EditStep) :
    editDistance (stepsLeft e) (stepsRight e) ≤ stepsCost e := by
  induction e with
  | nil => simp [stepsLeft, stepsRight, stepsCost, editDistance_nil_left]
  | cons st e ih =>
    cases st with
    | del a =>
      rw [stepsLeft_del, stepsRight_del, stepsCost]
      calc editDistance (a :: stepsLeft e) (stepsRight e)
          ≤ 1 + editDistance (stepsLeft e) (stepsRight e) := ed_del_le _ _ _
        _ ≤ 1 + stepsCost e := by omega
    | ins b =>
      rw [stepsLeft_ins, stepsRight_ins, stepsCost]
      calc editDistance (stepsLeft e) (b :: stepsRight e)
          ≤ 1 + editDistance (stepsLeft e) (stepsRight e) := ed_ins_le _ _ _
        _ ≤ 1 + stepsCost e := by omega
    | sub a b =>
      rw [stepsLeft_sub, stepsRight_sub, stepsCost]
      calc editDistance (a :: stepsLeft e) (b :: stepsRight e)
          ≤ (if a = b then 0 else 1) + editDistance (stepsLeft e) (stepsRight e) :=
            ed_sub_le _ _ _ _
        _ ≤ (if a = b then 0 else 1) + stepsCost e := by omega

theorem stepsLeft_map_ins (t : List Char) : stepsLeft (t.map .ins) = [] := by
  induction t with
  | nil => rfl
  | cons b t ih => simpa [stepsLeft_ins] using ih

theorem stepsRight_map_ins (t : List Char) : stepsRight (t.map .ins) = t := by
  induction t with
  | nil => rfl
  | cons b t ih => simp [stepsRight_ins]; exact ih

theorem stepsCost_map_ins (t : List Char) : stepsCost (t.map .ins) = t.length := by
  induction t with
  | nil => rfl
  | cons b t ih => simp [stepsCost]; omega

theorem stepsLeft_map_del (s : List Char) : stepsLeft (s.map .del) = s := by
  induction s with
  | nil => rfl
  | cons a s ih => simp [stepsLeft_del]; exact ih

theorem stepsRight_map_del (s : List Char) : stepsRight (s.map .del) = [] := by
  induction s with
  | nil => rfl
  | cons a s ih => simpa [stepsRight_del] using ih

theorem stepsCost_map_del (s : List Char) : stepsCost (s.map .del) = s.length := by
  induction s with
  | nil => rfl
  | cons a s ih => simp [stepsCost]; omega

/-- Some alignment attains the edit distance exactly. -/
theorem exists_optimal_alignment :
    ∀ (n : Nat) (s t : List Char), s.length + t.length = n →
      ∃ e : List EditStep,
        stepsLeft e = s ∧ stepsRight e = t ∧ stepsCost e = editDistance s t := by
  intro n
  induction n using Nat.strong_induction_on with
  | _ n ih =>
    intro s t hlen
    match s, t with
    | [], t =>
      exact ⟨t.map .ins, stepsLeft_map_ins t, stepsRight_map_ins t, by
        rw [stepsCost_map_ins, editDistance_nil_left]⟩
    | a :: s', [] =>
      exact ⟨(a :: s').map .del, stepsLeft_map_del _, stepsRight_map_del _, by
        rw [stepsCost_map_del, editDistance_nil_right]⟩
    | a :: s', b :: t' =>
      have hn : s'.length + t'.length + 1 < n := by simp at hlen; omega
      by_cases hab : a = b
      · obtain ⟨e, hl, hr, hc⟩ := ih _ (by omega) s' t' rfl
        refine ⟨.sub a b :: e, ?_, ?_, ?_⟩
        · rw [stepsLeft_sub, hl]
        · rw [stepsRight_sub, hr]
        · rw [stepsCost, hc, editDistance_cons_cons, if_pos hab, if_pos hab]
          omega
      · set X := editDistance s' t' with hX
        set Y := editDistance s' (b :: t') with hY
        set Z := editDistance (a :: s') t' with hZ
        have hed : editDistance (a :: s') (b :: t') = 1 + min X (min Y Z) := by
          rw [editDistance_cons_cons, if_neg hab]
        have hmin : min X (min Y Z) = X ∨ min X (min Y Z) = Y ∨ min X (min Y Z) = Z := by
          omega
        rcases hmin with hm | hm | hm
        · obtain ⟨e, hl, hr, hc⟩ := ih _ (by omega) s' t' rfl
          refine ⟨.sub a b :: e, ?_, ?_, ?_⟩
          · rw [stepsLeft_sub, hl]
          · rw [stepsRight_sub, hr]
          · rw [stepsCost, hc, hed, hm, if_neg hab, ← hX]
        · obtain ⟨e, hl, hr, hc⟩ := ih _ hn s' (b :: t') (by simp; omega)
          refine ⟨.del a :: e, ?_, ?_, ?_⟩
          · rw [stepsLeft_del, hl]
          · rw [stepsRight_del, hr]
          · rw [stepsCost, hc, hed, hm, ← hY]
        · obtain ⟨e, hl, hr, hc⟩ := ih _ hn (a :: s') t' (by simp; omega)
          refine ⟨.ins b :: e, ?_, ?_, ?_⟩
          · rw [stepsLeft_ins, hl]
          · rw [stepsRight_ins, hr]
          · rw [stepsCost, hc, hed, hm, ← hZ]

theorem stepsLeft_reverse (e : List EditStep) :
    stepsLeft e.reverse = (stepsLeft e).reverse := by
  unfold stepsLeft
  induction e with
  | nil => rfl
  | cons st e ih =>
    cases st <;> simp [List.filterMap_append, ih]

theorem stepsRight_reverse (e : List EditStep) :
    stepsRight e.reverse = (stepsRight e).reverse := by
  unfold stepsRight
  induction e with
  | nil => rfl
  | cons st e ih =>
    cases st <;> simp [List.filterMap_append, ih]

theorem stepsCost_append (e₁ e₂ : List EditStep) :
    stepsCost (e₁ ++ e₂) = stepsCost e₁ + stepsCost e₂ := by
  induction e₁ with
  | nil => simp [stepsCost]
  | cons st e ih => cases st <;> simp [stepsCost, ih] <;> omega

theorem stepsCost_reverse (e : List EditStep) : stepsCost e.reverse = stepsCost e := by
  induction e with
  | nil => rfl
  | cons st e ih =>
    cases st <;> simp [stepsCost, stepsCost_append, ih] <;> omega

theorem editDistance_reverse_le (s t : List Char) :
    editDistance s.reverse t.reverse ≤ editDistance s t := by
  obtain ⟨e, hl, hr, hc⟩ := exists_optimal_alignment (s.length + t.length) s t rfl
  have h := editDistance_le_stepsCost e.reverse
  rw [stepsLeft_reverse, stepsRight_reverse, stepsCost_reverse, hl, hr, hc] at h
  exact h

/-- Edit distance is invariant under reversing both strings. -/
theorem editDistance_reverse (s t : List Char) :
    editDistance s.reverse t.reverse = editDistance s t := by
  refine Nat.le_antisymm (editDistance_reverse_le s t) ?_
  have h := editDistance_reverse_le s.reverse t.reverse
  simpa using h


theorem distInner_rowTail (s : List Char) :
    ∀ (r u : List Char) (tc : Char),
      Levenshtein.distInner tc s (editDistance r u) (editDistance r (tc :: u))
        (rowTail r u s) = rowTail r (tc :: u) s := by
  induction s with
  | nil => intro r u tc; rfl
  | cons c s' ih =>
    intro r u tc
    show (if c = tc then editDistance r u
        else 1 + min (editDistance r u)
          (min (editDistance r (tc :: u)) (editDistance (c :: r) u))) ::
      Levenshtein.distInner tc s' (editDistance (c :: r) u)
        (if c = tc then editDistance r u
          else 1 + min (editDistance r u)
            (min (editDistance r (tc :: u)) (editDistance (c :: r) u)))
        (rowTail (c :: r) u s') = rowTail r (tc :: u) (c :: s')
    rw [← editDistance_cons_cons c tc r u, ih (c :: r) u tc]
    rfl

theorem distLoop_rowTail (s : List Char) :
    ∀ (t' U : List Char),
      Levenshtein.distLoop s t' (U.length + 1) (editDistance [] U :: rowTail [] U s) =
        editDistance [] (t'.reverse ++ U) :: rowTail [] (t'.reverse ++ U) s := by
  intro t'
  induction t' with
  | nil => intro U; rfl
  | cons tc t'' ih =>
    intro U
    have happ : (tc :: t'').reverse ++ U = t''.reverse ++ (tc :: U) := by simp
    rw [happ, ← ih (tc :: U)]
    show Levenshtein.distLoop s t'' (U.length + 1 + 1)
        ((U.length + 1) :: Levenshtein.distInner tc s (editDistance [] U)
          (U.length + 1) (rowTail [] U s)) =
      Levenshtein.distLoop s t'' ((tc :: U).length + 1)
        (editDistance [] (tc :: U) :: rowTail [] (tc :: U) s)
    rw [List.length_cons]
    have hU : (U.length + 1 : Nat) = editDistance [] (tc :: U) := by
      rw [editDistance_nil_left, List.length_cons]
    rw [hU, distInner_rowTail s [] U tc]

theorem cons_map_range (k n : Nat) :
    k :: (List.range n).map (fun i => k + 1 + i) = (List.range (n + 1)).map (fun i => k + i) := by
  rw [List.range_succ_eq_map]
  simp only [List.map_cons, Nat.add_zero, List.map_map]
  refine congrArg (k :: ·) (List.map_congr_left ?_)
  intro i _
  simp [Nat.succ_eq_add_one]
  omega

theorem rowTail_nil_target (s : List Char) :
    ∀ r : List Char,
      editDistance r [] :: rowTail r [] s =
        (List.range (s.length + 1)).map (fun i => r.length + i) := by
  induction s with
  | nil =>
    intro r
    simp [rowTail, editDistance_nil_right, List.range_succ]
  | cons c s' ih =>
    intro r
    have h := ih (c :: r)
    rw [editDistance_nil_right] at h
    rw [rowTail, editDistance_nil_right r, editDistance_nil_right (c :: r), h]
    simp only [List.length_cons]
    exact cons_map_range r.length (s'.length + 1)

theorem rowTail_getD (s : List Char) :
    ∀ (r u : List Char),
      (editDistance r u :: rowTail r u s).getD s.length 0 =
        editDistance (s.reverse ++ r) u := by
  induction s with
  | nil => intro r u; simp
  | cons c s' ih =>
    intro r u
    have h := ih (c :: r) u
    have happ : (c :: s').reverse ++ r = s'.reverse ++ (c :: r) := by simp
    rw [happ, ← h]
    rfl

/-- The rolling-row DP computes the classic edit distance. -/
theorem distance_eq_editDistance (s t : List Char) :
    Levenshtein.distance s t = editDistance s t := by
  unfold Levenshtein.distance
  by_cases hs : s.length = 0
  · rw [if_pos hs]
    rw [List.length_eq_zero] at hs
    subst hs
    rw [editDistance_nil_left]
  · rw [if_neg hs]
    by_cases ht : t.length = 0
    · rw [if_pos ht]
      rw [List.length_eq_zero] at ht
      subst ht
      rw [editDistance_nil_right]
    · rw [if_neg ht]
      have hinit : List.range (s.length + 1) = editDistance [] [] :: rowTail [] [] s := by
        rw [rowTail_nil_target s []]
        simp
      rw [hinit]
      have hloop := distLoop_rowTail s t []
      simp only [List.length_nil, Nat.zero_add, List.append_nil] at hloop
      rw [hloop, rowTail_getD s [] t.reverse, List.append_nil]
      exact editDistance_reverse s t

/-- C2: for all strings `a` and `b`, the rolling single-row DP of
`Levenshtein::distance` computes the classic insertion/deletion/substitution
edit distance (case-sensitive); in particular `distance s s = 0`,
`distance s "" = length s = distance "" s`, and `distance` is symmetric. -/
theorem levenshtein_distance_correct (a b s : List Char) :
    Levenshtein.distance a b = editDistance a b ∧
    Levenshtein.distance s s = 0 ∧
    Levenshtein.distance s [] = s.length ∧
    Levenshtein.distance [] s = s.length ∧
    Levenshtein.distance a b = Levenshtein.distance b a := by
  refine ⟨distance_eq_editDistance a b, ?_, ?_, ?_, ?_⟩
  · rw [distance_eq_editDistance, editDistance_self]
  · rw [distance_eq_editDistance, editDistance_nil_right]
  · rw [distance_eq_editDistance, editDistance_nil_left]
  · rw [distance_eq_editDistance, distance_eq_editDistance,
      editDistance_comm (a.length + b.length) a b rfl]

theorem getClosestLoop_no_improve (s : List Char) :
    ∀ (l : List (List Char)) (md : Nat) (cl : Option (List Char)),
      (∀ c ∈ l, md ≤ Levenshtein.distance s c) →
      Levenshtein.getClosestLoop s l md cl = (md, cl) := by
  intro l
  induction l with
  | nil => intro md cl _; rfl
  | cons c rest ih =>
    intro md cl h
    have hc : ¬ Levenshtein.distance s c < md := by
      have := h c (by simp)
      omega
    show (if Levenshtein.distance s c < md then _ else _) = _
    rw [if_neg hc]
    exact ih md cl fun x hx => h x (by simp [hx])

theorem getClosestLoop_improve (s : List Char) :
    ∀ (l : List (List Char)) (md : Nat) (cl : Option (List Char)),
      (∃ c ∈ l, Levenshtein.distance s c < md) →
      ∃ r pre suf,
        (Levenshtein.getClosestLoop s l md cl).2 = some r ∧
        l = pre ++ r :: suf ∧
        Levenshtein.distance s r = (Levenshtein.getClosestLoop s l md cl).1 ∧
        (∀ p ∈ pre, (Levenshtein.getClosestLoop s l md cl).1 < Levenshtein.distance s p) ∧
        (∀ c ∈ l, (Levenshtein.getClosestLoop s l md cl).1 ≤ Levenshtein.distance s c) ∧
        (Levenshtein.getClosestLoop s l md cl).1 < md := by
  intro l
  induction l with
  | nil => intro md cl h; simp at h
  | cons c rest ih =>
    intro md cl h
    by_cases hd : Levenshtein.distance s c < md
    · have hstep : Levenshtein.getClosestLoop s (c :: rest) md cl =
          Levenshtein.getClosestLoop s rest (Levenshtein.distance s c) (some c) := by
        show (if Levenshtein.distance s c < md then _ else _) = _
        rw [if_pos hd]
      rw [hstep]
      by_cases himp : ∃ x ∈ rest, Levenshtein.distance s x < Levenshtein.distance s c
      · obtain ⟨r, pre, suf, h1, h2, h3, h4, h5, h6⟩ :=
          ih (Levenshtein.distance s c) (some c) himp
        refine ⟨r, c :: pre, suf, h1, by rw [h2]; rfl, h3, ?_, ?_, by omega⟩
        · intro p hp
          rcases List.mem_cons.mp hp with hp | hp
          · subst hp; omega
          · exact h4 p hp
        · intro x hx
          rcases List.mem_cons.mp hx with hx | hx
          · subst hx; omega
          · exact h5 x hx
      · push_neg at himp
        have hres : Levenshtein.getClosestLoop s rest (Levenshtein.distance s c) (some c) =
            (Levenshtein.distance s c, some c) :=
          getClosestLoop_no_improve s rest (Levenshtein.distance s c) (some c) himp
        rw [hres]
        refine ⟨c, [], rest, rfl, rfl, rfl, by simp, ?_, hd⟩
        intro x hx
        rcases List.mem_cons.mp hx with hx | hx
        · subst hx; omega
        · exact himp x hx
    · have hstep : Levenshtein.getClosestLoop s (c :: rest) md cl =
          Levenshtein.getClosestLoop s rest md cl := by
        show (if Levenshtein.distance s c < md then _ else _) = _
        rw [if_neg hd]
      rw [hstep]
      have himp : ∃ x ∈ rest, Levenshtein.distance s x < md := by
        obtain ⟨x, hx, hxd⟩ := h
        rcases List.mem_cons.mp hx with hx | hx
        · subst hx; omega
        · exact ⟨x, hx, hxd⟩
      obtain ⟨r, pre, suf, h1, h2, h3, h4, h5, h6⟩ := ih md cl himp
      refine ⟨r, c :: pre, suf, h1, by rw [h2]; rfl, h3, ?_, ?_, h6⟩
      · intro p hp
        rcases List.mem_cons.mp hp with hp | hp
        · subst hp; omega
        · exact h4 p hp
      · intro x hx
        rcases List.mem_cons.mp hx with hx | hx
        · subst hx; omega
        · exact h5 x hx

/-- C3: `get_closest_with_threshold` returns `none` iff every candidate's
distance exceeds the threshold (vacuously for an empty list); otherwise it
returns the earliest candidate attaining the minimum distance.  The
hypothesis reflects that in Rust every distance is a `usize` strictly below
the `usize::MAX` sentinel. -/
theorem get_closest_with_threshold_spec (s : List Char) (vars : List (List Char))
    (threshold : Nat)
    (hmax : ∀ c ∈ vars, Levenshtein.distance s c < Levenshtein.usizeMax) :
    (Levenshtein.get_closest_with_threshold s vars threshold = none ↔
      ∀ c ∈ vars, threshold < Levenshtein.distance s c) ∧
    ∀ r, Levenshtein.get_closest_with_threshold s vars threshold = some r →
      r ∈ vars ∧ Levenshtein.distance s r ≤ threshold ∧
      (∀ c ∈ vars, Levenshtein.distance s r ≤ Levenshtein.distance s c) ∧
      ∃ pre suf, vars = pre ++ r :: suf ∧
        ∀ p ∈ pre, Levenshtein.distance s r < Levenshtein.distance s p := by
  cases vars with
  | nil =>
    constructor
    · constructor
      · intro _ c hc; simp at hc
      · intro _
        show (if Levenshtein.usizeMax ≤ threshold then (none : Option (List Char))
          else none) = none
        split <;> rfl
    · intro r hr
      have : (if Levenshtein.usizeMax ≤ threshold then (none : Option (List Char))
          else none) = some r := hr
      revert this
      split <;> intro h <;> simp at h
  | cons c0 rest =>
    have himp : ∃ c ∈ c0 :: rest, Levenshtein.distance s c < Levenshtein.usizeMax :=
      ⟨c0, by simp, hmax c0 (by simp)⟩
    obtain ⟨r, pre, suf, h1, h2, h3, h4, h5, _⟩ :=
      getClosestLoop_improve s (c0 :: rest) Levenshtein.usizeMax none himp
    set L := Levenshtein.getClosestLoop s (c0 :: rest) Levenshtein.usizeMax none with hL
    have hunf : Levenshtein.get_closest_with_threshold s (c0 :: rest) threshold =
        if L.1 ≤ threshold then L.2 else none := rfl
    have hrmem : r ∈ c0 :: rest := by rw [h2]; simp
    by_cases hth : L.1 ≤ threshold
    · rw [hunf, if_pos hth, h1]
      constructor
      · constructor
        · intro habs; simp at habs
        · intro hall
          exfalso
          have := hall r hrmem
          omega
      · intro r' hr'
        have hrr : r' = r := by injection hr' with h; exact h.symm
        subst hrr
        refine ⟨hrmem, by omega, ?_, pre, suf, h2, ?_⟩
        · intro cx hcx
          have := h5 cx hcx
          omega
        · intro p hp
          have := h4 p hp
          omega
    · rw [hunf, if_neg hth]
      constructor
      · constructor
        · intro _ cx hcx
          have := h5 cx hcx
          omega
        · intro _; rfl
      · intro r' hr'
        simp at hr'

/-- Witness for `get_closest_with_threshold_spec` at a concrete input. -/
theorem get_closest_with_threshold_spec_witness :
    Levenshtein.get_closest_with_threshold "ehco".toList ["echo".toList] 2 = none ↔
      ∀ c ∈ ["echo".toList], 2 < Levenshtein.distance "ehco".toList c :=
  (get_closest_with_threshold_spec "ehco".toList ["echo".toList] 2 (by decide)).1

theorem shellTokens_tokens_nonempty :
    ∀ (input : List Char) (sq dq : Bool) (cur : List Char),
      ∀ t ∈ shellTokens input sq dq cur, t ≠ [] := by
  intro input sq dq cur
  induction input, sq, dq, cur using shellTokens.induct with
  | case1 sq dq =>
    intro t ht
    simp [shellTokens] at ht
  | case2 sq dq cur h =>
    intro t ht
    simp [shellTokens, h] at ht
    subst ht
    exact h
  | case3 c rest sq dq cur h ih =>
    intro t ht
    rw [shellTokens.eq_def] at ht
    dsimp only at ht
    rw [if_pos h] at ht
    exact ih t ht
  | case4 c rest sq dq cur h1 h2 ih =>
    intro t ht
    rw [shellTokens.eq_def] at ht
    dsimp only at ht
    rw [if_neg h1, if_pos h2] at ht
    exact ih t ht
  | case5 sq dq cur h1 h2 ih =>
    intro t ht
    rw [shellTokens, if_neg h1, if_neg h2] at ht
    simp only [if_pos rfl] at ht
    exact ih t ht
  | case6 sq dq cur e rest' h1 h2 ih =>
    intro t ht
    rw [shellTokens, if_neg h1, if_neg h2] at ht
    simp only [if_pos rfl] at ht
    exact ih t ht
  | case7 c rest sq dq h1 h2 h3 h4 ih =>
    intro t ht
    rw [shellTokens.eq_def] at ht
    dsimp only at ht
    rw [if_neg h1, if_neg h2, if_neg h3, if_pos h4, if_pos rfl] at ht
    exact ih t ht
  | case8 c rest sq dq cur h1 h2 h3 h4 h5 ih =>
    intro t ht
    rw [shellTokens.eq_def] at ht
    dsimp only at ht
    rw [if_neg h1, if_neg h2, if_neg h3, if_pos h4, if_neg h5] at ht
    rcases List.mem_cons.mp ht with ht | ht
    · subst ht; exact h5
    · exact ih t ht
  | case9 c rest sq dq cur h1 h2 h3 h4 ih =>
    intro t ht
    rw [shellTokens.eq_def] at ht
    dsimp only at ht
    rw [if_neg h1, if_neg h2, if_neg h3, if_neg h4] at ht
    exact ih t ht

unseal shellTokens in
/-- C4: the tokenizer resolves quoting and escaping as specified: a backslash
copies the following character verbatim into the current token regardless of
quote state and is itself dropped (a trailing backslash is dropped with no
effect); quote characters toggle quote state without being copied; no empty
tokens are produced; and the two concrete examples from the spec hold. -/
theorem parse_shell_input_spec :
    (∀ (rest cur : List Char) (sq dq : Bool) (e : Char),
        shellTokens ('\\' :: e :: rest) sq dq cur = shellTokens rest sq dq (cur ++ [e])) ∧
    (∀ (cur : List Char) (sq dq : Bool),
        shellTokens ['\\'] sq dq cur = if cur = [] then [] else [cur]) ∧
    (∀ (rest cur : List Char) (sq : Bool),
        shellTokens ('\'' :: rest) sq false cur = shellTokens rest (!sq) false cur) ∧
    (∀ (rest cur : List Char) (dq : Bool),
        shellTokens ('"' :: rest) false dq cur = shellTokens rest false (!dq) cur) ∧
    (∀ (input : List Char) (sq dq : Bool) (cur : List Char),
        ∀ t ∈ shellTokens input sq dq cur, t ≠ []) ∧
    parse_shell_input "echo \"a b\" c".toList =
      ["echo".toList, "a b".toList, "c".toList] ∧
    parse_shell_input "foo\\ bar baz".toList = ["foo bar".toList, "baz".toList] := by
  refine ⟨?_, ?_, ?_, ?_, shellTokens_tokens_nonempty, ?_, ?_⟩
  · intro rest cur sq dq e
    simp [shellTokens]
  · intro cur sq dq
    simp [shellTokens]
  · intro rest cur sq
    conv_lhs => rw [shellTokens.eq_def]
    simp
  · intro rest cur dq
    conv_lhs => rw [shellTokens.eq_def]
    simp
  · decide
  · decide

unseal shellTokens in
/-- Witness for `parse_shell_input_spec` at a concrete input: the token
`echo` produced for the input line `echo` is nonempty. -/
theorem parse_shell_input_spec_witness : ("echo".toList : List Char) ≠ [] :=
  parse_shell_input_spec.2.2.2.2.1 "echo".toList false false [] "echo".toList (by decide)


theorem processRedirAux_spec :
    ∀ (ts : List (List Char)) (cmd : List (List Char)) (so se : Option (List Char))
      (out : List (List Char) × Option (List Char) × Option (List Char)),
      specScan ts = some out →
      processRedirAux ts cmd so se = .ok (cmd ++ out.1, out.2.1.or so, out.2.2.or se) := by
  intro ts
  induction ts using specScan.induct with
  | case1 =>
    intro cmd so se out hout
    simp [specScan] at hout
    subst hout
    simp [processRedirAux]
  | case2 =>
    intro cmd so se out hout
    simp [specScan] at hout
  | case3 file rest' ih =>
    intro cmd so se out hout
    rw [specScan.eq_def] at hout
    dsimp only at hout
    rw [if_pos rfl, Option.map_eq_some'] at hout
    obtain ⟨r, hr, hout⟩ := hout
    subst hout
    rw [processRedirAux.eq_def]
    dsimp only
    rw [if_pos rfl, ih cmd (some file) (some file) r hr]
    cases r.2.1 <;> cases r.2.2 <;> simp [Option.or]
  | case4 tok h1 h2 =>
    intro cmd so se out hout
    rw [specScan.eq_def] at hout
    dsimp only at hout
    rw [if_neg h1, if_pos h2] at hout
    simp at hout
  | case5 tok h1 h2 file rest' ih =>
    intro cmd so se out hout
    rw [specScan.eq_def] at hout
    dsimp only at hout
    rw [if_neg h1, if_pos h2, Option.map_eq_some'] at hout
    obtain ⟨r, hr, hout⟩ := hout
    subst hout
    rw [processRedirAux.eq_def]
    dsimp only
    rw [if_neg h1, if_pos h2, ih cmd (some file) se r hr]
    cases r.2.1 <;> simp [Option.or]
  | case6 h1 h2 =>
    intro cmd so se out hout
    rw [specScan.eq_def] at hout
    dsimp only at hout
    rw [if_neg h1, if_neg h2] at hout
    simp at hout
  | case7 file rest' h1 h2 ih =>
    intro cmd so se out hout
    rw [specScan.eq_def] at hout
    dsimp only at hout
    rw [if_neg h1, if_neg h2, if_pos rfl, Option.map_eq_some'] at hout
    obtain ⟨r, hr, hout⟩ := hout
    subst hout
    rw [processRedirAux.eq_def]
    dsimp only
    rw [if_neg h1, if_neg h2, if_pos rfl, ih cmd so (some file) r hr]
    cases r.2.2 <;> simp [Option.or]
  | case8 tok rest h1 h2 h3 ih =>
    intro cmd so se out hout
    rw [specScan.eq_def] at hout
    dsimp only at hout
    rw [if_neg h1, if_neg h2, if_neg h3, Option.map_eq_some'] at hout
    obtain ⟨r, hr, hout⟩ := hout
    subst hout
    rw [processRedirAux.eq_def]
    dsimp only
    rw [if_neg h1, if_neg h2, if_neg h3, ih (cmd ++ [tok]) so se r hr]
    simp

/-- C5: on token sequences where every operator occurrence (in scan order)
is immediately followed by a target token, redirection resolution succeeds
and produces exactly the spec-side result: pass-through command tokens in
order, last-wins stdout/stderr targets, `&>` setting both; including the
concrete example. -/
theorem process_redirections_success_spec :
    (∀ (ts : List (List Char)) (out : List (List Char) × Option (List Char) × Option (List Char)),
        specScan ts = some out → process_redirections ts = .ok out) ∧
    process_redirections ["cmd".toList, "arg".toList, "2>".toList, "err.log".toList] =
      .ok (["cmd".toList, "arg".toList], none, some "err.log".toList) := by
  constructor
  · intro ts out hout
    have h := processRedirAux_spec ts [] none none out hout
    rw [Option.or_none, Option.or_none, List.nil_append] at h
    exact h
  · rfl

/-- Witness for `process_redirections_success_spec` at a concrete input. -/
theorem process_redirections_success_spec_witness :
    process_redirections ["ls".toList, "&>".toList, "all.log".toList] =
      .ok (["ls".toList], some "all.log".toList, some "all.log".toList) :=
  process_redirections_success_spec.1
    ["ls".toList, "&>".toList, "all.log".toList]
    (["ls".toList], some "all.log".toList, some "all.log".toList) (by decide)

/-- C6 counterexample: the token sequence `["2>", ">"]` ends in the
recognized operator `>`, yet resolution succeeds (the `>` is consumed as the
target of `2>`), contradicting the claim that every sequence whose last
token is a recognized operator fails with a parsing error. -/
theorem process_redirections_trailing_op_counterexample :
    isRedirOp ">".toList = true ∧
    process_redirections ["2>".toList, ">".toList] =
      .ok ([], none, some ">".toList) := by
  constructor
  · decide
  · rfl

theorem processRedirAux_dangling :
    ∀ ts : List (List Char), specScan ts = none →
      ∃ pre op, ts = pre ++ [op] ∧ isRedirOp op = true ∧
        ∀ cmd so se, processRedirAux ts cmd so se =
          .error (.ParsingFail
            (if op = "2>".toList then noErrorFileMsg else noOutputFileMsg)) := by
  intro ts
  induction ts using specScan.induct with
  | case1 =>
    intro h
    simp [specScan] at h
  | case2 =>
    intro _
    refine ⟨[], "&>".toList, rfl, by decide, ?_⟩
    intro cmd so se
    simp [processRedirAux]
  | case3 file rest' ih =>
    intro h
    rw [specScan.eq_def] at h
    dsimp only at h
    rw [if_pos rfl, Option.map_eq_none'] at h
    obtain ⟨pre, op, hsplit, hop, heq⟩ := ih h
    refine ⟨"&>".toList :: file :: pre, op, by rw [hsplit]; rfl, hop, ?_⟩
    intro cmd so se
    rw [processRedirAux.eq_def]
    dsimp only
    rw [if_pos rfl]
    exact heq cmd (some file) (some file)
  | case4 tok h1 h2 =>
    intro _
    have hne : ¬ tok = "2>".toList := by
      rcases h2 with h | h <;> subst h <;> decide
    refine ⟨[], tok, rfl, ?_, ?_⟩
    · rcases h2 with h | h <;> subst h <;> decide
    · intro cmd so se
      rw [if_neg hne, processRedirAux.eq_def]
      dsimp only
      rw [if_neg h1, if_pos h2]
  | case5 tok h1 h2 file rest' ih =>
    intro h
    rw [specScan.eq_def] at h
    dsimp only at h
    rw [if_neg h1, if_pos h2, Option.map_eq_none'] at h
    obtain ⟨pre, op, hsplit, hop, heq⟩ := ih h
    refine ⟨tok :: file :: pre, op, by rw [hsplit]; rfl, hop, ?_⟩
    intro cmd so se
    rw [processRedirAux.eq_def]
    dsimp only
    rw [if_neg h1, if_pos h2]
    exact heq cmd (some file) se
  | case6 h1 h2 =>
    intro _
    refine ⟨[], "2>".toList, rfl, by decide, ?_⟩
    intro cmd so se
    rw [if_pos rfl, processRedirAux.eq_def]
    dsimp only
    rw [if_neg h1, if_neg h2, if_pos rfl]
  | case7 file rest' h1 h2 ih =>
    intro h
    rw [specScan.eq_def] at h
    dsimp only at h
    rw [if_neg h1, if_neg h2, if_pos rfl, Option.map_eq_none'] at h
    obtain ⟨pre, op, hsplit, hop, heq⟩ := ih h
    refine ⟨"2>".toList :: file :: pre, op, by rw [hsplit]; rfl, hop, ?_⟩
    intro cmd so se
    rw [processRedirAux.eq_def]
    dsimp only
    rw [if_neg h1, if_neg h2, if_pos rfl]
    exact heq cmd so (some file)
  | case8 tok rest h1 h2 h3 ih =>
    intro h
    rw [specScan.eq_def] at h
    dsimp only at h
    rw [if_neg h1, if_neg h2, if_neg h3, Option.map_eq_none'] at h
    obtain ⟨pre, op, hsplit, hop, heq⟩ := ih h
    refine ⟨tok :: pre, op, by rw [hsplit]; rfl, hop, ?_⟩
    intro cmd so se
    rw [processRedirAux.eq_def]
    dsimp only
    rw [if_neg h1, if_neg h2, if_neg h3]
    exact heq (cmd ++ [tok]) so se

theorem specScan_nonop_dangling :
    ∀ (pre : List (List Char)), (∀ t ∈ pre, isRedirOp t = false) →
      ∀ op, isRedirOp op = true → specScan (pre ++ [op]) = none := by
  intro pre
  induction pre with
  | nil =>
    intro _ op hop
    have hcases : op = "&>".toList ∨ op = ">".toList ∨ op = "1>".toList ∨
        op = "2>".toList := by
      simp [isRedirOp] at hop
      tauto
    rcases hcases with h | h | h | h <;> subst h <;> simp [specScan]
  | cons t pre ih =>
    intro hpre op hop
    have ht : isRedirOp t = false := hpre t (by simp)
    have ht1 : ¬ t = "&>".toList := by
      simp [isRedirOp] at ht; tauto
    have ht2 : ¬ (t = ">".toList ∨ t = "1>".toList) := by
      simp [isRedirOp] at ht; tauto
    have ht3 : ¬ t = "2>".toList := by
      simp [isRedirOp] at ht; tauto
    show specScan (t :: (pre ++ [op])) = none
    rw [specScan.eq_def]
    dsimp only
    rw [if_neg ht1, if_neg ht2, if_neg ht3,
      ih (fun x hx => hpre x (by simp [hx])) op hop]
    rfl

/-- C6 (amended): whenever the left-to-right scan reaches the final token in
operator position with no token after it (`specScan ts = none` — the scan
fails in no other way), the sequence indeed ends in a recognized operator and
resolution fails with a `ParsingFail` carrying
`"no file specified for output redirection"` for `>`, `1>`, `&>` and
`"no file specified for error output redirection"` for `2>`; in particular
any sequence of non-operator tokens followed by a final operator is such a
sequence.  A final operator token consumed as the target of the preceding
operator does not cause failure (see the counterexample). -/
theorem process_redirections_dangling_op_fails :
    (∀ ts : List (List Char), specScan ts = none →
      ∃ pre op, ts = pre ++ [op] ∧ isRedirOp op = true ∧
        process_redirections ts =
          .error (.ParsingFail
            (if op = "2>".toList then noErrorFileMsg else noOutputFileMsg))) ∧
    (∀ (pre : List (List Char)), (∀ t ∈ pre, isRedirOp t = false) →
      ∀ op, isRedirOp op = true → specScan (pre ++ [op]) = none) := by
  constructor
  · intro ts h
    obtain ⟨pre, op, hsplit, hop, heq⟩ := processRedirAux_dangling ts h
    exact ⟨pre, op, hsplit, hop, heq [] none none⟩
  · exact specScan_nonop_dangling

/-- Witness for `process_redirections_dangling_op_fails` at a concrete
input: `["cmd", "1>", "f", "2>"]`, where the consumed operator-target pair
`1>`/`f` precedes the dangling `2>`. -/
theorem process_redirections_dangling_op_fails_witness :
    ∃ pre op,
      (["cmd".toList, "1>".toList, "f".toList, "2>".toList] : List (List Char)) =
        pre ++ [op] ∧
      isRedirOp op = true ∧
      process_redirections ["cmd".toList, "1>".toList, "f".toList, "2>".toList] =
        .error (.ParsingFail
          (if op = "2>".toList then noErrorFileMsg else noOutputFileMsg)) :=
  process_redirections_dangling_op_fails.1
    ["cmd".toList, "1>".toList, "f".toList, "2>".toList] (by decide)

/-- C1: for every dispatch, the command runs against the swapped streams
(file handles exactly where redirection was requested, the original handles
elsewhere), and afterwards — regardless of the command's `Ok`/`Err` result —
the shell's stdout and stderr handles equal the handles held before the
dispatch.  The hypothesis states that the executed command itself does not
reassign the shell's handle fields, which holds for every command in the
repository (they only write through the handles). -/
theorem shell_eval_redirect_scoped
    (run : ShellSt → Except ShellError Unit × ShellSt)
    (so se : Option (List Char)) (st : ShellSt)
    (hrun : ∀ s', ((run s').2).stdout = s'.stdout ∧ ((run s').2).stderr = s'.stderr) :
    (evalDispatch run so se st).1 = (run (swappedSt so se st)).1 ∧
    (evalDispatch run so se st).2.stdout = st.stdout ∧
    (evalDispatch run so se st).2.stderr = st.stderr := by
  have h1 := fun s' => (hrun s').1
  have h2 := fun s' => (hrun s').2
  cases so <;> cases se <;> simp [evalDispatch, swappedSt, h1, h2]

/-- Witness for `shell_eval_redirect_scoped` at a concrete input: a failing
command with stdout redirected to `out.txt`; both handles are restored. -/
theorem shell_eval_redirect_scoped_witness :
    (evalDispatch (fun s' => (.error .EmptyInput, s')) (some "out.txt".toList) none
        { stdout := .Stdout, stderr := .Stderr }).2.stdout = ShellOutput.Stdout ∧
    (evalDispatch (fun s' => (.error .EmptyInput, s')) (some "out.txt".toList) none
        { stdout := .Stdout, stderr := .Stderr }).2.stderr = ShellOutput.Stderr :=
  ⟨(shell_eval_redirect_scoped (fun s' => (.error .EmptyInput, s'))
      (some "out.txt".toList) none { stdout := .Stdout, stderr := .Stderr }
      (fun _ => ⟨rfl, rfl⟩)).2.1,
    (shell_eval_redirect_scoped (fun s' => (.error .EmptyInput, s'))
      (some "out.txt".toList) none { stdout := .Stdout, stderr := .Stderr }
      (fun _ => ⟨rfl, rfl⟩)).2.2⟩

theorem trimEnd_backslash_dropLast (l : List Char)
    (h1 : endsWithChar '\\' l = true) (h2 : endsWithTwoBackslashes l = false) :
    trimEndMatches '\\' l = l.dropLast := by
  unfold trimEndMatches endsWithChar endsWithTwoBackslashes at *
  match hrev : l.reverse with
  | [] =>
    rw [hrev] at h1
    simp at h1
  | c :: r =>
    rw [hrev] at h1 h2
    have hc : c = '\\' := by simpa using h1
    subst hc
    have hl : l = r.reverse ++ ['\\'] := by
      have := congrArg List.reverse hrev
      simpa using this
    have hr : r.dropWhile (fun c => c = '\\') = r := by
      cases r with
      | nil => rfl
      | cons c2 r2 =>
        have hne : ¬ c2 = '\\' := by
          simp [List.take] at h2
          exact h2
        simp [List.dropWhile, hne]
    rw [show (('\\' :: r).dropWhile (fun c => c = '\\') = r.dropWhile (fun c => c = '\\'))
      from by simp [List.dropWhile]]
    rw [hr, hl]
    simp

/-- C7: a physical line whose newline-trimmed form ends in a single unescaped
backslash has that backslash stripped, a space appended, and the next line
read and concatenated; a line not ending in a backslash — and in particular a
line ending in two backslashes — is kept verbatim with no continuation. -/
theorem read_multiline_input_spec (raw : List Char) (rest : List (List Char)) :
    (endsWithChar '\\' (trimEndMatches '\n' raw) = true →
      endsWithTwoBackslashes (trimEndMatches '\n' raw) = false →
      read_multiline_input (raw :: rest) =
        (trimEndMatches '\n' raw).dropLast ++ ' ' :: read_multiline_input rest) ∧
    (endsWithChar '\\' (trimEndMatches '\n' raw) = false →
      read_multiline_input (raw :: rest) = trimEndMatches '\n' raw) ∧
    (endsWithTwoBackslashes (trimEndMatches '\n' raw) = true →
      read_multiline_input (raw :: rest) = trimEndMatches '\n' raw) := by
  refine ⟨?_, ?_, ?_⟩
  · intro h1 h2
    show (if endsWithChar '\\' (trimEndMatches '\n' raw) &&
        !endsWithTwoBackslashes (trimEndMatches '\n' raw) then
        trimEndMatches '\\' (trimEndMatches '\n' raw) ++ ' ' :: read_multiline_input rest
      else trimEndMatches '\n' raw) =
      (trimEndMatches '\n' raw).dropLast ++ ' ' :: read_multiline_input rest
    rw [h1, h2]
    simp only [Bool.not_false, Bool.and_self, if_true]
    rw [trimEnd_backslash_dropLast _ h1 h2]
  · intro h1
    show (if endsWithChar '\\' (trimEndMatches '\n' raw) &&
        !endsWithTwoBackslashes (trimEndMatches '\n' raw) then
        trimEndMatches '\\' (trimEndMatches '\n' raw) ++ ' ' :: read_multiline_input rest
      else trimEndMatches '\n' raw) = trimEndMatches '\n' raw
    rw [h1]
    simp
  · intro h2
    show (if endsWithChar '\\' (trimEndMatches '\n' raw) &&
        !endsWithTwoBackslashes (trimEndMatches '\n' raw) then
        trimEndMatches '\\' (trimEndMatches '\n' raw) ++ ' ' :: read_multiline_input rest
      else trimEndMatches '\n' raw) = trimEndMatches '\n' raw
    rw [h2]
    simp

/-- Witness for `read_multiline_input_spec` at a concrete input: the line
`ab\` continues into `cd`, giving `ab cd`. -/
theorem read_multiline_input_spec_witness :
    read_multiline_input [['a', 'b', '\\', '\n'], ['c', 'd']] =
      ['a', 'b', ' ', 'c', 'd'] := by
  rw [(read_multiline_input_spec ['a', 'b', '\\', '\n'] [['c', 'd']]).1
    (by decide) (by decide)]
  decide

/-- C8 counterexample: (i) the code selects the threshold from
`command_name.len()`, the UTF-8 *byte* length: the two-character name `éé`
has byte length 4, so the code uses threshold 2, while the claim (fewer than
4 characters ⇒ threshold 1) demands threshold 1; (ii) the distance between
`ehco` and `echo` is 2 (an adjacent transposition), not 1 as the claim
states. -/
theorem levenshtein_threshold_byte_counterexample :
    ((['é', 'é'] : List Char).length < 4 ∧ levenshteinThreshold ['é', 'é'] = 2) ∧
    Levenshtein.distance "ehco".toList "echo".toList = 2 := by
  refine ⟨⟨?_, ?_⟩, ?_⟩
  · decide
  · decide
  · decide

/-- C8 (amended): the suggestion threshold is 1 when the attempted name's
UTF-8 byte length is below 4 and 2 otherwise (for ASCII names byte length and
character count coincide); with the builtin registry, the failed lookup
`ehco` (byte length 4, threshold 2) suggests `echo`, whose distance is 2. -/
theorem suggest_threshold_spec :
    (∀ (name : List Char) (reg : List (List Char)), byteLen name < 4 →
        suggestClosest name reg = Levenshtein.get_closest_with_threshold name reg 1) ∧
    (∀ (name : List Char) (reg : List (List Char)), 4 ≤ byteLen name →
        suggestClosest name reg = Levenshtein.get_closest_with_threshold name reg 2) ∧
    suggestClosest "ehco".toList
      ["cd".toList, "echo".toList, "exit".toList, "pwd".toList, "type".toList] =
      some "echo".toList ∧
    Levenshtein.distance "ehco".toList "echo".toList = 2 ∧
    byteLen "ehco".toList = 4 := by
  refine ⟨?_, ?_, ?_, ?_, ?_⟩
  · intro name reg h
    simp [suggestClosest, levenshteinThreshold, h]
  · intro name reg h
    rw [suggestClosest, levenshteinThreshold, if_neg (by omega)]
  · decide
  · decide
  · decide

/-- Witness for `suggest_threshold_spec` at a concrete input. -/
theorem suggest_threshold_spec_witness :
    suggestClosest "cd".toList ["cd".toList] =
      Levenshtein.get_closest_with_threshold "cd".toList ["cd".toList] 1 :=
  suggest_threshold_spec.1 "cd".toList ["cd".toList] (by decide)

theorem strLe_total : ∀ x y : List Char, (strLe x y || strLe y x) = true := by
  intro x
  induction x with
  | nil => intro y; simp [strLe]
  | cons a as ih =>
    intro y
    cases y with
    | nil => simp [strLe]
    | cons b bs =>
      by_cases h1 : a.toNat < b.toNat
      · simp [strLe, h1]
      · by_cases h2 : b.toNat < a.toNat
        · simp [strLe, h1, h2]
        · have h := ih bs
          simp [strLe, h1, h2]
          simpa using h

theorem strLe_trans :
    ∀ x y z : List Char, strLe x y = true → strLe y z = true → strLe x z = true := by
  intro x
  induction x with
  | nil => intro y z _ _; rfl
  | cons a as ih =>
    intro y z hxy hyz
    cases y with
    | nil => simp [strLe] at hxy
    | cons b bs =>
      cases z with
      | nil => simp [strLe] at hyz
      | cons c cs =>
        simp only [strLe] at hxy hyz ⊢
        split_ifs at hxy hyz ⊢ with g1 g2 g3 g4 g5 g6 <;>
          first
          | rfl
          | omega
          | (exact ih bs cs hxy hyz)

unseal List.merge List.mergeSort in
/-- C9 counterexample: a name registered both as a builtin and as an
external appears twice in the stored name list, contradicting the claim
that every name occurs exactly once. -/
theorem populate_registered_names_duplicate_counterexample :
    populate_registered_names ["echo".toList] ["echo".toList] =
      ["echo".toList, "echo".toList] ∧
    List.count "echo".toList (populate_registered_names ["echo".toList] ["echo".toList]) =
      2 := by
  constructor
  · decide
  · decide

/-- C9 (amended): the stored list is the sorted *concatenation* of the
builtin and external key lists: it is sorted in ascending order, contains a
name exactly as often as the two key lists combined do (so a name present in
both mappings occurs twice), and mentions exactly the registered names. -/
theorem populate_registered_names_spec (b e : List (List Char)) :
    List.Pairwise (fun x y => strLe x y = true) (populate_registered_names b e) ∧
    (∀ a : List Char,
      List.count a (populate_registered_names b e) = List.count a b + List.count a e) ∧
    (∀ a : List Char, a ∈ populate_registered_names b e ↔ a ∈ b ∨ a ∈ e) := by
  refine ⟨?_, ?_, ?_⟩
  · exact List.sorted_mergeSort (fun x y z => strLe_trans x y z)
      (fun x y => strLe_total x y) (b ++ e)
  · intro a
    unfold populate_registered_names
    have hperm := List.mergeSort_perm (b ++ e) strLe
    have hcount : List.count a ((b ++ e).mergeSort strLe) = List.count a (b ++ e) := by
      unfold List.count
      exact hperm.countP_eq _
    rw [hcount, List.count_append]
  · intro a
    unfold populate_registered_names
    rw [(List.mergeSort_perm (b ++ e) strLe).mem_iff, List.mem_append]

theorem byteLen_ascii (l : List Char) (h : ∀ c ∈ l, c.utf8Size = 1) :
    byteLen l = l.length := by
  induction l with
  | nil => rfl
  | cons c l ih =>
    have hc : c.utf8Size = 1 := h c (by simp)
    have ih' := ih fun x hx => h x (by simp [hx])
    simp [byteLen] at ih' ⊢
    omega

theorem charBoundary_ascii (l : List Char) (h : ∀ c ∈ l, c.utf8Size = 1) :
    ∀ i ≤ l.length, charBoundary l i = some i := by
  induction l with
  | nil =>
    intro i hi
    simp at hi
    subst hi
    rfl
  | cons c l ih =>
    intro i hi
    cases i with
    | zero => rfl
    | succ n =>
      have hc : c.utf8Size = 1 := h c (by simp)
      show charBoundary (c :: l) (n + 1) = some (n + 1)
      rw [charBoundary, hc, if_neg (by omega)]
      have hn : charBoundary l (n + 1 - 1) = some n := by
        simp only [Nat.add_sub_cancel]
        exact ih (fun x hx => h x (by simp [hx])) n (by simp at hi; omega)
      rw [hn]
      rfl

theorem ascii_utf8Size (b : Nat) (h1 : 32 ≤ b) (h2 : b ≤ 126) :
    (Char.ofNat b).utf8Size = 1 := by
  interval_cases b <;> decide

theorem handleInputStep_preserves (st : EditorSt) (ev : KeyEvent)
    (hascii : ∀ c ∈ st.buffer, c.utf8Size = 1) (hcur : st.cursor ≤ st.buffer.length) :
    ∃ st', handleInputStep st ev = some st' ∧
      (∀ c ∈ st'.buffer, c.utf8Size = 1) ∧ st'.cursor ≤ st'.buffer.length := by
  cases ev with
  | left =>
    refine ⟨_, rfl, hascii, ?_⟩
    dsimp only
    split <;> omega
  | right =>
    refine ⟨_, rfl, hascii, ?_⟩
    have hbl : byteLen st.buffer = st.buffer.length := byteLen_ascii _ hascii
    dsimp only
    split <;> omega
  | backspace =>
    by_cases h0 : 0 < st.cursor
    · have hb : charBoundary st.buffer (st.cursor - 1) = some (st.cursor - 1) :=
        charBoundary_ascii _ hascii _ (by omega)
      have hlt : st.cursor - 1 < st.buffer.length := by omega
      refine ⟨⟨st.buffer.eraseIdx (st.cursor - 1), st.cursor - 1⟩, ?_, ?_, ?_⟩
      · show (if 0 < st.cursor then _ else _) = _
        rw [if_pos h0]
        simp [stringRemove, hb, hlt]
      · intro c hc
        exact hascii c (List.eraseIdx_subset _ _ hc)
      · have hlen := List.length_eraseIdx (l := st.buffer) (i := st.cursor - 1)
        simp [hlt] at hlen
        dsimp only
        omega
    · refine ⟨st, ?_, hascii, hcur⟩
      show (if 0 < st.cursor then _ else _) = _
      rw [if_neg h0]
  | insert b =>
    by_cases hg : b ≤ 127 ∧ ¬(b < 32 ∨ b = 127)
    · have hsize : (Char.ofNat b).utf8Size = 1 := ascii_utf8Size b (by omega) (by omega)
      have hb : charBoundary st.buffer st.cursor = some st.cursor :=
        charBoundary_ascii _ hascii _ hcur
      refine ⟨⟨st.buffer.take st.cursor ++ Char.ofNat b :: st.buffer.drop st.cursor,
          st.cursor + 1⟩, ?_, ?_, ?_⟩
      · show (if b ≤ 127 ∧ ¬(b < 32 ∨ b = 127) then _ else _) = _
        rw [if_pos hg]
        simp [stringInsert, hb]
      · intro c hc
        rcases List.mem_append.mp hc with hc | hc
        · exact hascii c (List.mem_of_mem_take hc)
        · rcases List.mem_cons.mp hc with hc | hc
          · subst hc; exact hsize
          · exact hascii c (List.mem_of_mem_drop hc)
      · simp only [List.length_append, List.length_take, List.length_cons,
          List.length_drop]
        omega
    · refine ⟨st, ?_, hascii, hcur⟩
      show (if b ≤ 127 ∧ ¬(b < 32 ∨ b = 127) then _ else _) = _
      rw [if_neg hg]
  | histUp => exact ⟨st, rfl, hascii, hcur⟩

theorem runHandleInput_aux :
    ∀ (events : List KeyEvent) (st : EditorSt),
      (∀ c ∈ st.buffer, c.utf8Size = 1) → st.cursor ≤ st.buffer.length →
      ∃ st', List.foldlM handleInputStep st events = some st' ∧
        (∀ c ∈ st'.buffer, c.utf8Size = 1) ∧ st'.cursor ≤ st'.buffer.length := by
  intro events
  induction events with
  | nil => intro st h1 h2; exact ⟨st, rfl, h1, h2⟩
  | cons ev evs ih =>
    intro st h1 h2
    obtain ⟨st1, hstep, h1', h2'⟩ := handleInputStep_preserves st ev h1 h2
    obtain ⟨st', hrest, hh1, hh2⟩ := ih st1 h1' h2'
    refine ⟨st', ?_, hh1, hh2⟩
    rw [List.foldlM_cons, hstep]
    exact hrest

/-- C10 counterexample: in `InputHandler::input_loop` the byte `0xE9` (not
ASCII-control, so accepted) is inserted as the two-byte character `é` while
the cursor advances by one byte; the next insertion lands inside that
character and `String::insert` panics (modelled as `none`), contradicting
the claim that insertion is always in bounds and never panics. -/
theorem input_loop_panics_counterexample :
    runInputLoop [.insert 233, .insert 97] = none := by decide

/-- C10 (amended): for `Shell::handle_input`, which only inserts printable
ASCII bytes, the editor invariant holds for every event sequence: processing
never panics, the final cursor is at most the buffer's byte length and lies
on a character boundary; cursor movement never mutates the buffer, and
backspace at cursor 0 leaves the state unchanged.  (`input_loop` satisfies
this only for ASCII input, as the counterexample shows.) -/
theorem handle_input_editor_invariant :
    (∀ events : List KeyEvent, ∃ st : EditorSt,
        runHandleInput events = some st ∧
        st.cursor ≤ byteLen st.buffer ∧
        charBoundary st.buffer st.cursor ≠ none) ∧
    (∀ st st' : EditorSt, handleInputStep st .left = some st' → st'.buffer = st.buffer) ∧
    (∀ st st' : EditorSt, handleInputStep st .right = some st' → st'.buffer = st.buffer) ∧
    (∀ st st' : EditorSt, st.cursor = 0 → handleInputStep st .backspace = some st' →
      st' = st) := by
  refine ⟨?_, ?_, ?_, ?_⟩
  · intro events
    obtain ⟨st, hrun, h1, h2⟩ := runHandleInput_aux events ⟨[], 0⟩ (by simp) (by simp)
    refine ⟨st, hrun, ?_, ?_⟩
    · rw [byteLen_ascii st.buffer h1]
      exact h2
    · rw [charBoundary_ascii st.buffer h1 st.cursor h2]
      simp
  · intro st st' h
    injection h with h
    rw [← h]
  · intro st st' h
    injection h with h
    rw [← h]
  · intro st st' h0 h
    have hn : ¬ 0 < st.cursor := by omega
    simp only [handleInputStep, if_neg hn] at h
    injection h with h
    exact h.symm

/-- Witness for `handle_input_editor_invariant` at a concrete input: a left
arrow on buffer `a` does not change the buffer. -/
theorem handle_input_editor_invariant_witness :
    (⟨['a'], 0⟩ : EditorSt).buffer = (⟨['a'], 1⟩ : EditorSt).buffer :=
  handle_input_editor_invariant.2.1 ⟨['a'], 1⟩ ⟨['a'], 0⟩ (by decide)
